import Mathlib

/-!
Shallow embedding of `sidebar.py` (github-sidebar), a generator that turns a
directory of markdown documents into a single nested-list sidebar document.

Documents are modelled as lists of lines, strings as `List Char`.  Each
definition below mirrors one Python function or statement block of the source;
the mapping is noted in the doc comments.  Claims about the program are stated
and settled as theorems at the end of the file.
-/

namespace GithubSidebar

/-- Python whitespace set used by `str.strip` and the `\s` class (ASCII fragment). -/
def pyIsSpaceB (c : Char) : Bool :=
  c == ' ' || c == '\t' || c == '\n' || c == '\r' || c == '\x0b' || c == '\x0c'

/-- `str.strip()`: drop whitespace from both ends. -/
def pyStrip (l : List Char) : List Char :=
  ((l.dropWhile pyIsSpaceB).reverse.dropWhile pyIsSpaceB).reverse

/-- Number of leading `#` characters, the result of `re.search("^#+", line)`
(`0` means the regex did not match). -/
def leadingHashes : List Char → Nat
  | '#' :: rest => leadingHashes rest + 1
  | _ => 0

/-- `str.replace(".md", "")`: remove every (non-overlapping, left-to-right)
occurrence of the three-character substring `.md`, as in
`file_path.replace('.md', '')` on line 96 of the source. -/
def replaceMd : List Char → List Char
  | '.' :: 'm' :: 'd' :: rest => replaceMd rest
  | c :: rest => c :: replaceMd rest
  | [] => []

/-- `os.path.basename` on a POSIX path: the part after the last `/`. -/
def basename (p : List Char) : List Char :=
  (p.reverse.takeWhile (fun c => !(c == '/'))).reverse

/-- One iteration of the `for line in file` loop of `extract_headings`
(lines 78-92).  State is `(main_heading, subheadings)`. -/
def processLine (st : Option (List Char) × List (Nat × List Char)) (raw : List Char) :
    Option (List Char) × List (Nat × List Char) :=
  let line := pyStrip raw
  let indent := leadingHashes line
  if indent = 1 then
    (some (line.drop 2), st.2)
  else if 1 < indent then
    (st.1, st.2 ++ [(indent, line.drop (indent + 1))])
  else
    st

/-- `extract_headings` (lines 69-98): scan the lines, remembering the H1 text
and collecting `(depth, text)` for deeper headings; fall back to
`os.path.basename(file_path.replace('.md', ''))` when `main_heading` is falsy
(never set, or set to the empty string). -/
def extract_headings (lines : List (List Char)) (file_path : List Char) :
    List Char × List (Nat × List Char) :=
  let st := lines.foldl processLine (none, [])
  let title :=
    match st.1 with
    | some h => if h = [] then basename (replaceMd file_path) else h
    | none => basename (replaceMd file_path)
  (title, st.2)

/-- ASCII upper/lower pairs; models Python `str.lower()` on the ASCII letters. -/
def lowerPairs : List (Char × Char) :=
  [('A', 'a'), ('B', 'b'), ('C', 'c'), ('D', 'd'), ('E', 'e'), ('F', 'f'),
   ('G', 'g'), ('H', 'h'), ('I', 'i'), ('J', 'j'), ('K', 'k'), ('L', 'l'),
   ('M', 'm'), ('N', 'n'), ('O', 'o'), ('P', 'p'), ('Q', 'q'), ('R', 'r'),
   ('S', 's'), ('T', 't'), ('U', 'u'), ('V', 'v'), ('W', 'w'), ('X', 'x'),
   ('Y', 'y'), ('Z', 'z')]

/-- `str.lower()` on one character (ASCII fragment). -/
def pyToLower (c : Char) : Char :=
  match lowerPairs.find? (fun p => p.1 == c) with
  | some p => p.2
  | none => c

/-- `str.lower()` on a string (ASCII fragment). -/
def pyLower (s : List Char) : List Char := s.map pyToLower

/-- Python `\w` (ASCII fragment): letters, digits and underscore. -/
def pyIsWordChar (c : Char) : Bool := c.isAlphanum || c == '_'

/-- The character class kept by `re.sub(r'[^\w\s-]', '', text)`. -/
def subKeep (c : Char) : Bool := pyIsWordChar c || pyIsSpaceB c || c == '-'

/-- `create_anchor` (lines 100-104):
`re.sub(r'[^\w\s-]', '', text).strip().lower().replace(' ', '-')`. -/
def create_anchor (text : List Char) : List Char :=
  ((pyStrip (text.filter subKeep)).map pyToLower).map
    (fun c => if c == ' ' then '-' else c)

/-- One line appended to `summary.subheads` by `generate_sidebar`.  Each
constructor corresponds to one `summary.subheads.append(f'...')` statement of
the source (lines 175-209); `units` counts two-space indentation units, so the
rendered line prefixes the payload with `'  ' * units`. -/
inductive Line where
  | detailsOpen (href text : List Char)
  | detailsClose
  | blank
  | ulOpen (units : Nat)
  | ulClose (units : Nat)
  | li (units : Nat) (link text : List Char)
deriving DecidableEq

/-- `'  ' * n`. -/
def dupUnits (n : Nat) : List Char := List.replicate (2 * n) ' '

/-- Render one `Line` to the exact string appended by the source. -/
def renderLine : Line → List Char
  | Line.detailsOpen href text =>
      "<details><summary><a href=\"".data ++ href ++ "\">".data ++ text
        ++ "</a></summary>".data
  | Line.detailsClose => "</details>".data
  | Line.blank => ['\n']
  | Line.ulOpen n => dupUnits n ++ "<ul>".data
  | Line.ulClose n => dupUnits n ++ "</ul>".data
  | Line.li n link text =>
      dupUnits n ++ "<li><a href=\"".data ++ link ++ "\">".data ++ text
        ++ "</a></li>".data

/-- The `</ul>` lines emitted by a descending `for count in range(top, top-k, -1)`
loop: `k` closes whose indentation units start at `top` and step down. -/
def closeSeq : Nat → Nat → List Line
  | _, 0 => []
  | top, k + 1 => Line.ulClose top :: closeSeq (top - 1) k

/-- The inner `for indent_level, subheading_anchor in subheadings` loop
(lines 187-203).  The state is `(prior_indent, spaces)` where `spaces` is the
current indentation in two-space units. -/
def emitLoop (base_href : List Char) : Nat → Nat → List (Nat × List Char) → List Line
  | _, _, [] => []
  | prior, sp, (indent, text) :: rest =>
    let anchor := create_anchor (pyStrip text)
    let link := base_href ++ '#' :: anchor
    if prior < indent then
      Line.ulOpen indent :: Line.li (indent + 1) link (pyStrip text) ::
        emitLoop base_href indent (indent + 1) rest
    else if indent < prior then
      closeSeq prior (prior - indent) ++
        (Line.li indent link (pyStrip text) :: emitLoop base_href indent indent rest)
    else
      Line.li sp link (pyStrip text) :: emitLoop base_href prior sp rest

/-- The value of the Python loop variable `indent_level` after the loop:
the depth of the last subheading (`p` is the value before the loop). -/
def lastIndent : Nat → List (Nat × List Char) → Nat
  | p, [] => p
  | _, (d, _) :: rest => lastIndent d rest

/-- The trailing `for count in range(indent_level, 1, -1)` loop (lines 205-207):
`indent_level - 1` closes with indentation units `indent_level - 1` down to `1`. -/
def finalCloses (d : Nat) : List Line := closeSeq (d - 1) (d - 1)

/-- The per-document block built into `summary.subheads` (lines 175-209):
the collapsible header, then — when there are subheadings — the baseline
`  <ul>`, the loop output, the trailing closes and the `</details>`/blank pair. -/
def generateSubheads (base_href main_heading : List Char)
    (subheadings : List (Nat × List Char)) : List Line :=
  let head := Line.detailsOpen base_href main_heading
  match subheadings with
  | [] => [head, Line.detailsClose, Line.blank]
  | subs =>
      head :: Line.ulOpen 1 ::
        (emitLoop base_href 2 2 subs ++ finalCloses (lastIndent 2 subs) ++
          [Line.detailsClose, Line.blank])

/-! Marker counting and nesting checks over emitted blocks. -/

def isOpenLine : Line → Bool
  | Line.ulOpen _ => true
  | _ => false

def isCloseLine : Line → Bool
  | Line.ulClose _ => true
  | _ => false

def isItemLine : Line → Bool
  | Line.li _ _ _ => true
  | _ => false

/-- Number of `<ul>` list-open markers in a block. -/
def countOpens (l : List Line) : Nat := l.countP (fun x => isOpenLine x)

/-- Number of `</ul>` list-close markers in a block. -/
def countCloses (l : List Line) : Nat := l.countP (fun x => isCloseLine x)

/-- Scan a block keeping the current list-nesting level: `none` when some
close marker appears with no matching open marker still pending, otherwise
`some` of the final level.  `nestScan 0 l = some 0` says the block is balanced
and no close precedes its matching open. -/
def nestScan : Nat → List Line → Option Nat
  | n, [] => some n
  | n, Line.ulOpen _ :: rest => nestScan (n + 1) rest
  | n, Line.ulClose _ :: rest =>
      match n with
      | 0 => none
      | m + 1 => nestScan m rest
  | n, _ :: rest => nestScan n rest

/-- The markers emitted before the first list item of a block suffix. -/
def markersBefore (l : List Line) : List Line :=
  l.takeWhile (fun x => !(isItemLine x))

/-- Drop everything up to and including the `n`-th (1-based) list item. -/
def segmentAfterItem : Nat → List Line → List Line
  | _, [] => []
  | n, Line.li _ _ _ :: rest =>
      if n ≤ 1 then rest else segmentAfterItem (n - 1) rest
  | n, _ :: rest => segmentAfterItem n rest

/-- The markers emitted strictly between the `n`-th and `(n+1)`-th list items. -/
def markersBetween (n : Nat) (l : List Line) : List Line :=
  markersBefore (segmentAfterItem n l)

/-- Decidable form of the side condition under which the emitter balances:
every depth is at least 2 and every upward move from the cursor (the previous
depth, initially `p`) is by exactly one level. -/
def upOk : Nat → List (Nat × List Char) → Bool
  | _, [] => true
  | p, (d, _) :: rest =>
      decide (2 ≤ d) && (if p < d then decide (d = p + 1) else true) && upOk d rest

/-! ### Grouping and the output-writing phase of `generate_sidebar` -/

/-- `SummaryInfo.default_group_name` (line 18). -/
def ungroupedName : List Char := "Ungrouped".data

/-- The `SummaryInfo` object (lines 14-20); `subheads` holds the lines of the
rendered block. -/
structure SummaryInfo where
  summary_name : List Char
  group_name : List Char
  subheads : List Line
deriving DecidableEq

/-- `SummaryInfo.__init__`: `group_name` starts as the default group name. -/
def mkSummaryInfo (name : List Char) (subs : List Line) : SummaryInfo :=
  ⟨name, ungroupedName, subs⟩

/-- The parsed JSON grouping definition: an ordered mapping from group name to
the ordered list of member document titles (`SummaryMap.defs`). -/
abbrev GroupDefs := List (List Char × List (List Char))

/-- `SummaryMap.get_group_for_summary` (lines 36-42): first group whose member
list contains the name. -/
def get_group_for_summary : GroupDefs → List Char → Option (List Char)
  | [], _ => none
  | (key, val) :: rest, n =>
      if n ∈ val then some key else get_group_for_summary rest n

/-- `'\n'.join(sec.subheads)` with each line rendered. -/
def joinLines : List Line → List Char
  | [] => []
  | [l] => renderLine l
  | l :: rest => renderLine l ++ '\n' :: joinLines rest

/-- The chunk written by `sidebar.write(f'## {group}\n')`. -/
def headerChunk (g : List Char) : List Char := "## ".data ++ g ++ ['\n']

/-- Does a chunk start with `## `, i.e. look like a group header line? -/
def isPrefixChars : List Char → List Char → Bool
  | [], _ => true
  | _ :: _, [] => false
  | a :: as, b :: bs => a == b && isPrefixChars as bs

def isGroupHeaderChunk (c : List Char) : Bool := isPrefixChars "## ".data c

/-- The group-assignment loop (lines 218-221): set each summary's group to the
first group whose member list contains its name, leaving it unchanged (hence at
the default) when no group matches. -/
def assignOne (defs : GroupDefs) (s : SummaryInfo) : SummaryInfo :=
  match get_group_for_summary defs s.summary_name with
  | some g => { s with group_name := g }
  | none => s

def assignGroups (defs : GroupDefs) (sl : List SummaryInfo) : List SummaryInfo :=
  sl.map (assignOne defs)

/-- The inner `for index, item in enumerate(summarys)` loop (lines 229-232):
for each declared member title, write the block of the first summary with that
name, skipping titles with no matching summary. -/
def memberOut (members : List (List Char)) (sl : List SummaryInfo) : List (List Char) :=
  members.filterMap (fun item =>
    (sl.find? (fun x => x.summary_name = item)).map (fun sec => joinLines sec.subheads))

/-- The `for group in summary_map.defs` loop (lines 224-232): for each declared
group, in declared order, a `## group` header followed by the member blocks. -/
def declaredOut (sl : List SummaryInfo) : GroupDefs → List (List Char)
  | [] => []
  | (g, members) :: rest =>
      headerChunk g :: memberOut members sl ++ declaredOut sl rest

/-- The trailing ungrouped loop (lines 234-241): write the blocks of the
summaries whose group is still the default, preceded — once, before the first
such block — by a `## Ungrouped` header. -/
def ungroupedOut : Bool → List SummaryInfo → List (List Char)
  | _, [] => []
  | done, s :: rest =>
      if s.group_name = ungroupedName then
        (if done then ([] : List (List Char)) else [headerChunk ungroupedName]) ++
          (joinLines s.subheads :: ungroupedOut true rest)
      else
        ungroupedOut done rest

/-- The grouped writing branch (lines 214-241): assign groups, then write the
declared groups in JSON order followed by the ungrouped section. -/
def writeGrouped (defs : GroupDefs) (sl : List SummaryInfo) : List (List Char) :=
  let sl' := assignGroups defs sl
  declaredOut sl' defs ++ ungroupedOut false sl'

/-- The ungrouped writing branch (lines 243-247): blocks in list order, no
headers. -/
def writeFlat (sl : List SummaryInfo) : List (List Char) :=
  sl.map (fun s => joinLines s.subheads)

/-- The writing phase of `generate_sidebar`: the chunks passed to
`sidebar.write`, in order, as dispatched on `summary_map` (lines 214 and 243). -/
def writeSidebar : Option GroupDefs → List SummaryInfo → List (List Char)
  | none, sl => writeFlat sl
  | some defs, sl => writeGrouped defs sl

/-- `process_args` handling of the `-s` option (lines 142-150), with file I/O
and JSON parsing abstracted: when the file is missing, or present but fails to
parse (`parsed = none`), the global `summary_map` keeps its initial `None`. -/
def loadSummaryMap (fileFound : Bool) (parsed : Option GroupDefs) : Option GroupDefs :=
  if fileFound then parsed else none

/-- The skip test of the file loop (line 163):
`if "sidebar.md" in md_file.lower(): continue`. -/
def containsSub (needle : List Char) : List Char → Bool
  | [] => needle.isEmpty
  | hay@(_ :: rest) => isPrefixChars needle hay || containsSub needle rest

def skipFile (md_file : List Char) : Bool :=
  containsSub "sidebar.md".data (pyLower md_file)

/-- The selection applied to the discovered files (lines 161-164): keep exactly
the files the skip test does not match. -/
def selectFiles (files : List (List Char)) : List (List Char) :=
  files.filter (fun f => !(skipFile f))

/-! ### Definitions that follow the claims' words (for refutation / comparison
only — the program definitions above are translated from the source). -/

/-- Follows the claim's words (C5): the anchor character set `[a-z0-9-]`. -/
def ghAnchorCharOk (c : Char) : Bool :=
  ('a' ≤ c && c ≤ 'z') || ('0' ≤ c && c ≤ '9') || c == '-'

/-- Follows the claim's words (C6): the file base name with its (final)
extension stripped. -/
def claimTitleFallback (p : List Char) : List Char :=
  let b := basename p
  if '.' ∈ b then ((b.reverse.dropWhile (fun c => !(c == '.'))).drop 1).reverse else b

/-- Follows the claim's words (C9): a file is excluded iff it is the sidebar
output file, matched case-insensitively by file name. -/
def claimExcludes (output_file md_file : List Char) : Bool :=
  pyLower (basename md_file) == pyLower (basename output_file)

/-- Shape of every block built by `generate_sidebar`: it starts with the
`<details><summary>…` line. -/
def startsWithDetails : List Line → Bool
  | Line.detailsOpen _ _ :: _ => true
  | _ => false

/-! ## Helper lemmas -/

@[simp]
lemma nestScan_nil (n : Nat) : nestScan n [] = some n := rfl

@[simp]
lemma nestScan_ulOpen (n u : Nat) (l : List Line) :
    nestScan n (Line.ulOpen u :: l) = nestScan (n + 1) l := rfl

@[simp]
lemma nestScan_ulClose_succ (n u : Nat) (l : List Line) :
    nestScan (n + 1) (Line.ulClose u :: l) = nestScan n l := rfl

@[simp]
lemma nestScan_ulClose_zero (u : Nat) (l : List Line) :
    nestScan 0 (Line.ulClose u :: l) = none := rfl

@[simp]
lemma nestScan_detailsOpen (n : Nat) (h t : List Char) (l : List Line) :
    nestScan n (Line.detailsOpen h t :: l) = nestScan n l := rfl

@[simp]
lemma nestScan_detailsClose (n : Nat) (l : List Line) :
    nestScan n (Line.detailsClose :: l) = nestScan n l := rfl

@[simp]
lemma nestScan_blank (n : Nat) (l : List Line) :
    nestScan n (Line.blank :: l) = nestScan n l := rfl

@[simp]
lemma nestScan_li (n u : Nat) (a t : List Char) (l : List Line) :
    nestScan n (Line.li u a t :: l) = nestScan n l := rfl

lemma nestScan_closeSeq (k : Nat) :
    ∀ (top n : Nat) (rest : List Line), k ≤ n →
      nestScan n (closeSeq top k ++ rest) = nestScan (n - k) rest := by
  induction k with
  | zero => intro top n rest _; simp [closeSeq]
  | succ k ih =>
      intro top n rest hk
      obtain ⟨m, rfl⟩ : ∃ m, n = m + 1 := ⟨n - 1, by omega⟩
      have hkm : k ≤ m := by omega
      simp only [closeSeq, List.cons_append, nestScan_ulClose_succ]
      rw [ih (top - 1) m rest hkm]
      congr 1
      omega

lemma nestScan_emitLoop (b : List Char) (subs : List (Nat × List Char)) :
    ∀ (p sp n : Nat) (rest : List Line), upOk p subs = true → p = n + 1 →
      nestScan n (emitLoop b p sp subs ++ rest) =
        nestScan (lastIndent p subs - 1) rest := by
  induction subs with
  | nil =>
      intro p sp n rest _ hp
      simp [emitLoop, lastIndent, hp]
  | cons e es ih =>
      obtain ⟨d, t⟩ := e
      intro p sp n rest hok hp
      simp only [upOk, Bool.and_eq_true, decide_eq_true_eq] at hok
      obtain ⟨⟨hd2, hup⟩, hok'⟩ := hok
      by_cases hlt : p < d
      · have hd : d = p + 1 := by simpa [hlt] using hup
        simp only [emitLoop, if_pos hlt, List.cons_append, nestScan_ulOpen, nestScan_li]
        have : d = (n + 1) + 1 := by omega
        rw [ih d (d + 1) (n + 1) rest hok' this]
        simp [lastIndent]
      · by_cases hgt : d < p
        · simp only [emitLoop, if_neg hlt, if_pos hgt, List.append_assoc,
            List.cons_append]
          rw [nestScan_closeSeq (p - d) p n _ (by omega)]
          rw [nestScan_li]
          have hnd : n - (p - d) = d - 1 := by omega
          rw [hnd]
          have hdd : d = (d - 1) + 1 := by omega
          rw [ih d d (d - 1) rest hok' hdd]
          simp [lastIndent]
        · have hdp : d = p := by omega
          simp only [emitLoop, if_neg hlt, if_neg hgt, List.cons_append, nestScan_li]
          rw [ih p sp n rest (by simpa [hdp] using hok') hp]
          simp [lastIndent, hdp]

lemma two_le_lastIndent (subs : List (Nat × List Char)) :
    ∀ p : Nat, upOk p subs = true → 2 ≤ p → 2 ≤ lastIndent p subs := by
  induction subs with
  | nil => intro p _ hp; simpa [lastIndent] using hp
  | cons e es ih =>
      obtain ⟨d, t⟩ := e
      intro p hok _
      simp only [upOk, Bool.and_eq_true, decide_eq_true_eq] at hok
      obtain ⟨⟨hd2, _⟩, hok'⟩ := hok
      simpa [lastIndent] using ih d hok' hd2

lemma counts_of_nestScan (l : List Line) :
    ∀ n m : Nat, nestScan n l = some m → countOpens l + n = countCloses l + m := by
  induction l with
  | nil => intro n m h; simp [nestScan] at h; simp [countOpens, countCloses, h]
  | cons x xs ih =>
      intro n m h
      cases x with
      | ulOpen u =>
          rw [nestScan_ulOpen] at h
          have := ih (n + 1) m h
          simp [countOpens, countCloses, List.countP_cons, isOpenLine,
            isCloseLine] at this ⊢
          omega
      | ulClose u =>
          cases n with
          | zero => simp at h
          | succ n =>
              rw [nestScan_ulClose_succ] at h
              have := ih n m h
              simp [countOpens, countCloses, List.countP_cons, isOpenLine,
                isCloseLine] at this ⊢
              omega
      | detailsOpen a c =>
          rw [nestScan_detailsOpen] at h
          have := ih n m h
          simp [countOpens, countCloses, List.countP_cons, isOpenLine,
            isCloseLine] at this ⊢
          omega
      | detailsClose =>
          rw [nestScan_detailsClose] at h
          have := ih n m h
          simp [countOpens, countCloses, List.countP_cons, isOpenLine,
            isCloseLine] at this ⊢
          omega
      | blank =>
          rw [nestScan_blank] at h
          have := ih n m h
          simp [countOpens, countCloses, List.countP_cons, isOpenLine,
            isCloseLine] at this ⊢
          omega
      | li u a c =>
          rw [nestScan_li] at h
          have := ih n m h
          simp [countOpens, countCloses, List.countP_cons, isOpenLine,
            isCloseLine] at this ⊢
          omega

/-! ## C1 -/

/--
C1 (corrected).  The claim — every non-empty sub-heading sequence with depths
≥ 2 yields a block with as many `<ul>` as `</ul>` markers and no premature
close — is false: an upward jump of more than one level (cursor `prior` to
depth `d > prior + 1`) opens only one marker, while the later descent closes
one marker per level.  On depths `[2, 4, 2]` the block has 2 opens and 3
closes, and the nesting scan fails.
-/
theorem c1_counterexample_2_4_2 :
    countOpens (generateSubheads "h".data "T".data
        [(2, "A".data), (4, "B".data), (2, "C".data)]) = 2 ∧
    countCloses (generateSubheads "h".data "T".data
        [(2, "A".data), (4, "B".data), (2, "C".data)]) = 3 ∧
    nestScan 0 (generateSubheads "h".data "T".data
        [(2, "A".data), (4, "B".data), (2, "C".data)]) = none := by
  decide

/--
C1 (amended).  Balanced nesting holds for every non-empty sub-heading sequence
in which each depth is at least 2 and each upward move from the cursor (the
previous entry's depth, initially 2) is by exactly one level: the block's
nesting scan from level 0 succeeds and returns 0 (so no close marker precedes
its matching open marker), and the number of `<ul>` markers equals the number
of `</ul>` markers.
-/
theorem c1_balanced_nesting_unit_up_steps (b mh : List Char)
    (subs : List (Nat × List Char)) (hne : subs ≠ []) (hok : upOk 2 subs = true) :
    nestScan 0 (generateSubheads b mh subs) = some 0 ∧
    countOpens (generateSubheads b mh subs) =
      countCloses (generateSubheads b mh subs) := by
  obtain ⟨e, es, rfl⟩ : ∃ e es, subs = e :: es := by
    cases subs with
    | nil => exact absurd rfl hne
    | cons e es => exact ⟨e, es, rfl⟩
  have hscan : nestScan 0 (generateSubheads b mh (e :: es)) = some 0 := by
    have hlast := two_le_lastIndent (e :: es) 2 hok (by omega)
    simp only [generateSubheads, nestScan_detailsOpen, nestScan_ulOpen,
      Nat.zero_add]
    rw [List.append_assoc]
    rw [nestScan_emitLoop b (e :: es) 2 2 1 _ hok rfl]
    rw [show finalCloses (lastIndent 2 (e :: es)) =
      closeSeq (lastIndent 2 (e :: es) - 1) (lastIndent 2 (e :: es) - 1) from rfl]
    rw [nestScan_closeSeq (lastIndent 2 (e :: es) - 1)
      (lastIndent 2 (e :: es) - 1) (lastIndent 2 (e :: es) - 1) _ (by omega)]
    simp
  refine ⟨hscan, ?_⟩
  have := counts_of_nestScan (generateSubheads b mh (e :: es)) 0 0 hscan
  omega

/-- Witness for C1's amended theorem at the concrete sequence `[2, 3, 2]`. -/
theorem c1_witness :
    nestScan 0 (generateSubheads "h".data "T".data
        [(2, "A".data), (3, "B".data), (2, "C".data)]) = some 0 ∧
    countOpens (generateSubheads "h".data "T".data
        [(2, "A".data), (3, "B".data), (2, "C".data)]) =
      countCloses (generateSubheads "h".data "T".data
        [(2, "A".data), (3, "B".data), (2, "C".data)]) :=
  c1_balanced_nesting_unit_up_steps "h".data "T".data
    [(2, "A".data), (3, "B".data), (2, "C".data)] (by decide) (by decide)

/-! ## C2 -/

@[simp]
lemma isOpenLine_ulOpen (u : Nat) : isOpenLine (Line.ulOpen u) = true := rfl

@[simp]
lemma isOpenLine_ulClose (u : Nat) : isOpenLine (Line.ulClose u) = false := rfl

@[simp]
lemma isCloseLine_ulClose (u : Nat) : isCloseLine (Line.ulClose u) = true := rfl

@[simp]
lemma isCloseLine_ulOpen (u : Nat) : isCloseLine (Line.ulOpen u) = false := rfl

@[simp]
lemma isItemLine_ulOpen (u : Nat) : isItemLine (Line.ulOpen u) = false := rfl

@[simp]
lemma isItemLine_ulClose (u : Nat) : isItemLine (Line.ulClose u) = false := rfl

@[simp]
lemma isItemLine_li (u : Nat) (a t : List Char) :
    isItemLine (Line.li u a t) = true := rfl

lemma markersBefore_closeSeq (k : Nat) :
    ∀ (top u : Nat) (a t : List Char) (tail : List Line),
      markersBefore (closeSeq top k ++ (Line.li u a t :: tail)) = closeSeq top k := by
  induction k with
  | zero => intro top u a t tail; simp [closeSeq, markersBefore]
  | succ k ih =>
      intro top u a t tail
      show markersBefore (Line.ulClose top ::
        (closeSeq (top - 1) k ++ (Line.li u a t :: tail))) =
          Line.ulClose top :: closeSeq (top - 1) k
      rw [markersBefore, List.takeWhile_cons_of_pos (by simp)]
      exact congrArg (fun l => Line.ulClose top :: l) (ih (top - 1) u a t tail)

lemma countOpens_closeSeq (k : Nat) : ∀ top : Nat, countOpens (closeSeq top k) = 0 := by
  induction k with
  | zero => intro top; simp [closeSeq, countOpens]
  | succ k ih =>
      intro top
      have h := ih (top - 1)
      simp only [closeSeq, countOpens, List.countP_cons] at h ⊢
      simpa using h

lemma countCloses_closeSeq (k : Nat) : ∀ top : Nat, countCloses (closeSeq top k) = k := by
  induction k with
  | zero => intro top; simp [closeSeq, countCloses]
  | succ k ih =>
      intro top
      have h := ih (top - 1)
      simp only [closeSeq, countCloses, List.countP_cons] at h ⊢
      simp only [isCloseLine_ulClose, if_pos]
      omega

/--
C2 (confirmed).  For the depth sequence `[2, 4, 2]` the emitted block has
exactly one `<ul>` and no `</ul>` between the first and second list items, and
exactly two `</ul>` and no `<ul>` between the second and third; in general,
one loop step starting with cursor `prior` at an entry of depth `d` emits,
before that entry's list item, exactly one open marker when `prior < d`
(regardless of jump size) and exactly `prior - d` close markers.
-/
theorem c2_depth_transition_markers :
    (countOpens (markersBetween 1 (generateSubheads "h".data "T".data
        [(2, "A".data), (4, "B".data), (2, "C".data)])) = 1 ∧
     countCloses (markersBetween 1 (generateSubheads "h".data "T".data
        [(2, "A".data), (4, "B".data), (2, "C".data)])) = 0 ∧
     countOpens (markersBetween 2 (generateSubheads "h".data "T".data
        [(2, "A".data), (4, "B".data), (2, "C".data)])) = 0 ∧
     countCloses (markersBetween 2 (generateSubheads "h".data "T".data
        [(2, "A".data), (4, "B".data), (2, "C".data)])) = 2) ∧
    (∀ (b : List Char) (prior sp d : Nat) (t : List Char)
        (rest : List (Nat × List Char)),
      countOpens (markersBefore (emitLoop b prior sp ((d, t) :: rest))) =
          (if prior < d then 1 else 0) ∧
      countCloses (markersBefore (emitLoop b prior sp ((d, t) :: rest))) =
          prior - d) := by
  constructor
  · exact ⟨by decide, by decide, by decide, by decide⟩
  · intro b prior sp d t rest
    by_cases hlt : prior < d
    · simp only [emitLoop, if_pos hlt]
      simp [markersBefore, List.takeWhile_cons, isItemLine, countOpens,
        countCloses, List.countP_cons, isOpenLine, isCloseLine]
      omega
    · by_cases hgt : d < prior
      · simp only [emitLoop, if_neg hlt, if_pos hgt]
        rw [markersBefore_closeSeq]
        simp [countOpens_closeSeq, countCloses_closeSeq, if_neg hlt]
      · have hdp : d = prior := by omega
        simp only [emitLoop, if_neg hlt, if_neg hgt]
        simp [markersBefore, List.takeWhile_cons, isItemLine, countOpens,
          countCloses, if_neg hlt]
        omega

/-! ## C3, C4, C6: the heading parser -/

lemma fold_fst_h1 (st : Option (List Char) × List (Nat × List Char))
    (pre : List (List Char)) (l : List Char)
    (h : leadingHashes (pyStrip l) = 1) :
    (List.foldl processLine st (pre ++ [l])).1 = some ((pyStrip l).drop 2) := by
  rw [List.foldl_append]
  simp [processLine, h]

lemma fold_snd_sub (st : Option (List Char) × List (Nat × List Char))
    (pre : List (List Char)) (l : List Char) (k : Nat)
    (hk : leadingHashes (pyStrip l) = k) (h2 : 2 ≤ k) :
    List.foldl processLine st (pre ++ [l]) =
      ((List.foldl processLine st pre).1,
       (List.foldl processLine st pre).2 ++ [(k, (pyStrip l).drop (k + 1))]) := by
  rw [List.foldl_append]
  have h1 : ¬(k = 1) := by omega
  have h1' : 1 < k := by omega
  simp [processLine, hk, h1, h1']

lemma fold_fst_none (lines : List (List Char)) :
    ∀ st : Option (List Char) × List (Nat × List Char),
      (∀ l ∈ lines, leadingHashes (pyStrip l) ≠ 1) →
      (List.foldl processLine st lines).1 = st.1 := by
  induction lines with
  | nil => intro st _; rfl
  | cons l ls ih =>
      intro st h
      have hl : leadingHashes (pyStrip l) ≠ 1 := h l (by simp)
      have hrest : ∀ x ∈ ls, leadingHashes (pyStrip x) ≠ 1 := fun x hx =>
        h x (by simp [hx])
      rw [List.foldl_cons, ih _ hrest]
      by_cases hgt : 1 < leadingHashes (pyStrip l)
      · simp [processLine, hl, hgt]
      · simp [processLine, hl, hgt]

lemma extract_append_h1 (pre : List (List Char)) (l : List Char)
    (path : List Char) (h : leadingHashes (pyStrip l) = 1)
    (hne : (pyStrip l).drop 2 ≠ []) :
    (extract_headings (pre ++ [l]) path).1 = (pyStrip l).drop 2 := by
  have hfold := fold_fst_h1 (none, ([] : List (Nat × List Char))) pre l h
  simp only [extract_headings]
  rw [hfold]
  simp [hne]

/--
C3 (corrected).  The claim — the first depth-1 heading wins and later depth-1
lines are ignored — is false: `main_heading` is unconditionally reassigned on
every depth-1 line, so the last depth-1 heading wins.  On a document with
lines `# First` and `# Second` the extracted title is `Second`.
-/
theorem c3_counterexample_last_h1_wins :
    (extract_headings ["# First".data, "# Second".data] "f.md".data).1 =
      "Second".data ∧
    "Second".data ≠ "First".data := by
  constructor
  · decide
  · decide

/--
C3 (amended).  Later depth-1 lines do change the title: in every document,
split as `pre ++ l :: post` where `l` is the last depth-1 heading line (no
line of `post` is depth-1, while `pre` may contain any number of depth-1
lines), the extracted title is `l`'s text (the stripped line minus its first
two characters) when that text is non-empty, and falls back to the file name
(with every `.md` removed) when it is empty.
-/
theorem c3_last_h1_sets_title (pre post : List (List Char)) (l : List Char)
    (path : List Char) (h : leadingHashes (pyStrip l) = 1)
    (hpost : ∀ x ∈ post, leadingHashes (pyStrip x) ≠ 1) :
    (extract_headings (pre ++ l :: post) path).1 =
      if (pyStrip l).drop 2 = [] then basename (replaceMd path)
      else (pyStrip l).drop 2 := by
  have hfold : (List.foldl processLine (none, ([] : List (Nat × List Char)))
      (pre ++ l :: post)).1 = some ((pyStrip l).drop 2) := by
    rw [show pre ++ l :: post = (pre ++ [l]) ++ post by simp]
    rw [List.foldl_append]
    rw [fold_fst_none post _ hpost]
    exact fold_fst_h1 _ pre l h
  simp only [extract_headings]
  rw [hfold]

/-- Witness for C3's amended theorem: `# A`, `# B`, `## C` titles the
document `B` even though the last depth-1 line is not the final line. -/
theorem c3_witness :
    (extract_headings (["# A".data] ++ "# B".data :: ["## C".data])
        "f.md".data).1 =
      if (pyStrip "# B".data).drop 2 = [] then basename (replaceMd "f.md".data)
      else (pyStrip "# B".data).drop 2 :=
  c3_last_h1_sets_title ["# A".data] ["## C".data] "# B".data "f.md".data
    (by decide) (by decide)

/--
C4 (corrected).  The claim — a line whose `#` markers are not followed by a
space is treated as a non-heading — is false: the parser counts the markers
and slices the line regardless of what follows them.  `#NoSpace` sets the
title to `oSpace` (the marker and the following character are dropped), and
`##NoSpace` appends the sub-heading `(2, oSpace)`.
-/
theorem c4_counterexample_nospace_is_heading :
    (extract_headings ["#NoSpace".data] "f.md".data).1 = "oSpace".data ∧
    "oSpace".data ≠ basename (replaceMd "f.md".data) ∧
    (extract_headings ["##NoSpace".data] "f.md".data).2 = [(2, "oSpace".data)] := by
  refine ⟨by decide, by decide, by decide⟩

/--
C4 (amended).  A line beginning with `#` markers is treated as a heading even
with no following space: with `k ≥ 2` leading markers it appends
`(k, text)` to the sub-heading sequence where `text` drops the first `k + 1`
characters of the stripped line, and with one leading marker it sets the title
to the stripped line minus its first two characters (when that is non-empty).
-/
theorem c4_no_space_still_heading :
    (∀ (pre : List (List Char)) (l path : List Char) (k : Nat),
        leadingHashes (pyStrip l) = k → 2 ≤ k →
        (extract_headings (pre ++ [l]) path).2 =
          (extract_headings pre path).2 ++ [(k, (pyStrip l).drop (k + 1))]) ∧
    (∀ (pre : List (List Char)) (l path : List Char),
        leadingHashes (pyStrip l) = 1 → (pyStrip l).drop 2 ≠ [] →
        (extract_headings (pre ++ [l]) path).1 = (pyStrip l).drop 2) := by
  constructor
  · intro pre l path k hk h2
    have hfold := fold_snd_sub (none, ([] : List (Nat × List Char))) pre l k hk h2
    simp only [extract_headings]
    rw [hfold]
  · intro pre l path h hne
    exact extract_append_h1 pre l path h hne

/-- Witness for C4's amended theorem: `##ab` appends `(2, b)`. -/
theorem c4_witness :
    (extract_headings (["x".data] ++ ["##ab".data]) "f.md".data).2 =
      (extract_headings ["x".data] "f.md".data).2 ++
        [(2, (pyStrip "##ab".data).drop 3)] :=
  c4_no_space_still_heading.1 ["x".data] "##ab".data "f.md".data 2
    (by decide) (by decide)

/--
C6 (corrected).  The claim — with no depth-1 heading the title is the file's
base name with its extension stripped, for every path — is false: the code
removes every occurrence of the substring `.md` from the whole path before
taking the base name (`file_path.replace('.md', '')`).  For the path
`a.md.md` the code produces `a`, while the base name minus its extension is
`a.md`.
-/
theorem c6_counterexample_replace_all :
    (extract_headings [] "a.md.md".data).1 = "a".data ∧
    claimTitleFallback "a.md.md".data = "a.md".data ∧
    "a".data ≠ "a.md".data := by
  refine ⟨by decide, by decide, by decide⟩

/--
C6 (amended).  For every document with zero depth-1 heading lines, the
extracted title is the base name of the path obtained by deleting every
occurrence of the substring `.md` from the full path; when `.md` occurs in
the path only as the final extension this equals the base name without its
extension.
-/
theorem c6_title_fallback (lines : List (List Char)) (path : List Char)
    (h : ∀ l ∈ lines, leadingHashes (pyStrip l) ≠ 1) :
    (extract_headings lines path).1 = basename (replaceMd path) := by
  have hfold := fold_fst_none lines (none, ([] : List (Nat × List Char))) h
  simp only [extract_headings]
  rw [hfold]

/-- Witness for C6's amended theorem on a one-line document with no depth-1
heading. -/
theorem c6_witness :
    (extract_headings ["## x".data] "dir/notes.md".data).1 =
      basename (replaceMd "dir/notes.md".data) :=
  c6_title_fallback ["## x".data] "dir/notes.md".data (by decide)

/-! ## C5: the anchor function -/

lemma mem_of_mem_pyStrip (c : Char) (l : List Char) (h : c ∈ pyStrip l) : c ∈ l := by
  unfold pyStrip at h
  rw [List.mem_reverse] at h
  have h1 := (List.dropWhile_sublist (l := (l.dropWhile pyIsSpaceB).reverse)
    (p := pyIsSpaceB)).subset h
  rw [List.mem_reverse] at h1
  exact (List.dropWhile_sublist (l := l) (p := pyIsSpaceB)).subset h1

lemma lowerPairs_snd_ok :
    ∀ p ∈ lowerPairs, pyIsWordChar p.2 = true ∧ p.2 ≠ ' ' ∧
      ¬(65 ≤ p.2.toNat ∧ p.2.toNat ≤ 90) := by
  decide

lemma find?_none_not_upper (c : Char)
    (hfind : lowerPairs.find? (fun p => p.1 == c) = none) :
    ¬(65 ≤ c.toNat ∧ c.toNat ≤ 90) := by
  rintro ⟨h65, h90⟩
  have hc : Char.ofNat c.toNat = c := Char.ofNat_toNat c
  set n := c.toNat with hn
  interval_cases n <;> (subst hc; exact absurd hfind (by decide))

lemma pyToLower_keeps_subKeep (c : Char) (h : subKeep c = true) :
    subKeep (pyToLower c) = true ∧ ¬(65 ≤ (pyToLower c).toNat ∧ (pyToLower c).toNat ≤ 90) := by
  unfold pyToLower
  cases hfind : lowerPairs.find? (fun p => p.1 == c) with
  | none =>
      exact ⟨h, find?_none_not_upper c hfind⟩
  | some p =>
      have hp := lowerPairs_snd_ok p (List.mem_of_find?_eq_some hfind)
      exact ⟨by simp [subKeep, hp.1], hp.2.2⟩

/--
C5 (corrected).  The claim — `create_anchor` output contains only characters
from `[a-z0-9-]` and every internal whitespace run becomes one hyphen — is
false: Python's `\w` class keeps the underscore (so `a_b` maps to `a_b`,
which contains `_`), and `replace(' ', '-')` turns each space into its own
hyphen (so `a  b`, with a two-space run, maps to `a--b` rather than `a-b`).
-/
theorem c5_counterexample_underscore_and_runs :
    create_anchor "a_b".data = "a_b".data ∧
    ghAnchorCharOk '_' = false ∧
    create_anchor "a  b".data = "a--b".data ∧
    "a--b".data ≠ "a-b".data := by
  refine ⟨by decide, by decide, by decide, by decide⟩

/--
C5 (amended).  Every character of a `create_anchor` result is a word
character (letter, digit or underscore), a hyphen, or a non-space whitespace
character; no character is a space, and none is an ASCII uppercase letter.
Each space surviving the edge trim is replaced by exactly one hyphen, so a
run of n spaces yields n hyphens.
-/
theorem c5_anchor_charset (s : List Char) :
    ∀ c ∈ create_anchor s,
      (pyIsWordChar c = true ∨ pyIsSpaceB c = true ∨ c = '-') ∧ c ≠ ' ' ∧
        ¬(65 ≤ c.toNat ∧ c.toNat ≤ 90) := by
  intro c hc
  unfold create_anchor at hc
  rw [List.mem_map] at hc
  obtain ⟨c1, hc1, hceq⟩ := hc
  rw [List.mem_map] at hc1
  obtain ⟨c0, hc0, hc1eq⟩ := hc1
  have hkeep : subKeep c0 = true :=
    (List.mem_filter.1 (mem_of_mem_pyStrip c0 _ hc0)).2
  subst hc1eq
  by_cases hsp : pyToLower c0 == ' '
  · have : c = '-' := by rw [← hceq, if_pos hsp]
    subst this
    refine ⟨Or.inr (Or.inr rfl), by decide, by decide⟩
  · have hcc : c = pyToLower c0 := by rw [← hceq, if_neg hsp]
    subst hcc
    have hlow := pyToLower_keeps_subKeep c0 hkeep
    have hne : pyToLower c0 ≠ ' ' := by
      intro hx
      exact hsp (by simp [hx])
    refine ⟨?_, hne, hlow.2⟩
    have := hlow.1
    simp only [subKeep, Bool.or_eq_true, beq_iff_eq] at this
    rcases this with (h | h) | h
    · exact Or.inl h
    · exact Or.inr (Or.inl h)
    · exact Or.inr (Or.inr h)

/-- Witness for C5's amended theorem at the character `a` of
`create_anchor "ab"`. -/
theorem c5_witness :
    (pyIsWordChar 'a' = true ∨ pyIsSpaceB 'a' = true ∨ 'a' = '-') ∧ 'a' ≠ ' ' ∧
      ¬(65 ≤ 'a'.toNat ∧ 'a'.toNat ≤ 90) :=
  c5_anchor_charset "ab".data 'a' (by decide)

/-! ## C9: input-file exclusion -/

/--
C9 (corrected).  The claim — a discovered file is excluded iff it is the
sidebar output file, matched case-insensitively by file name — is false: the
code tests `"sidebar.md" in md_file.lower()`, a substring test on the whole
lowercased path that never consults the configured output file.  With output
file `out.md`, the file `My-Sidebar.md` is not the output file but is
excluded, while the output file `out.md` itself is not excluded.
-/
theorem c9_counterexample_substring_test :
    skipFile "My-Sidebar.md".data = true ∧
    claimExcludes "out.md".data "My-Sidebar.md".data = false ∧
    skipFile "out.md".data = false ∧
    claimExcludes "out.md".data "out.md".data = true := by
  refine ⟨by decide, by decide, by decide, by decide⟩

/--
C9 (amended).  A discovered file is excluded iff its lowercased full path
contains the substring `sidebar.md`; the configured output file name plays no
role.  The default output name `_Sidebar.md` does match this pattern.
-/
theorem c9_exclusion_is_substring_test :
    (∀ (files : List (List Char)) (f : List Char),
        f ∈ selectFiles files ↔
          f ∈ files ∧ containsSub "sidebar.md".data (pyLower f) = false) ∧
    skipFile "_Sidebar.md".data = true := by
  constructor
  · intro files f
    simp [selectFiles, List.mem_filter, skipFile]
  · decide

/-- Witness for C9's amended theorem at a concrete file list. -/
theorem c9_witness :
    "My-Sidebar.md".data ∈ selectFiles ["My-Sidebar.md".data] ↔
      "My-Sidebar.md".data ∈ ["My-Sidebar.md".data] ∧
        containsSub "sidebar.md".data (pyLower "My-Sidebar.md".data) = false :=
  c9_exclusion_is_substring_test.1 ["My-Sidebar.md".data] "My-Sidebar.md".data

/-! ## C7, C8, C10: grouping and the writing phase -/

lemma isGroupHeaderChunk_header (g : List Char) :
    isGroupHeaderChunk (headerChunk g) = true := rfl

lemma headerChunk_inj (g1 g2 : List Char) (h : headerChunk g1 = headerChunk g2) :
    g1 = g2 := by
  unfold headerChunk at h
  rw [List.append_assoc, List.append_assoc] at h
  exact List.append_cancel_right (List.append_cancel_left h)

lemma isGroupHeaderChunk_block (ls : List Line)
    (h : startsWithDetails ls = true) :
    isGroupHeaderChunk (joinLines ls) = false := by
  cases ls with
  | nil => simp [startsWithDetails] at h
  | cons l rest =>
      cases l with
      | detailsOpen a b =>
          cases rest with
          | nil => rfl
          | cons r rs => rfl
      | detailsClose => simp [startsWithDetails] at h
      | blank => simp [startsWithDetails] at h
      | ulOpen u => simp [startsWithDetails] at h
      | ulClose u => simp [startsWithDetails] at h
      | li u a t => simp [startsWithDetails] at h

lemma block_ne_header (ls : List Line) (g : List Char)
    (h : startsWithDetails ls = true) : joinLines ls ≠ headerChunk g := by
  intro he
  have h1 := isGroupHeaderChunk_block ls h
  rw [he, isGroupHeaderChunk_header] at h1
  exact absurd h1 (by decide)

lemma get_group_mem (defs : GroupDefs) :
    ∀ (n g : List Char), get_group_for_summary defs n = some g →
      g ∈ defs.map Prod.fst := by
  induction defs with
  | nil => intro n g h; simp [get_group_for_summary] at h
  | cons p rest ih =>
      obtain ⟨k, v⟩ := p
      intro n g h
      by_cases hm : n ∈ v
      · simp [get_group_for_summary, hm] at h
        simp [h]
      · simp only [get_group_for_summary, if_neg hm] at h
        simp [ih n g h]

lemma assignOne_summary_name (defs : GroupDefs) (s : SummaryInfo) :
    (assignOne defs s).summary_name = s.summary_name := by
  unfold assignOne
  cases get_group_for_summary defs s.summary_name <;> rfl

lemma assignOne_subheads (defs : GroupDefs) (s : SummaryInfo) :
    (assignOne defs s).subheads = s.subheads := by
  unfold assignOne
  cases get_group_for_summary defs s.summary_name <;> rfl

lemma assignOne_of_none (defs : GroupDefs) (s : SummaryInfo)
    (h : get_group_for_summary defs s.summary_name = none) :
    assignOne defs s = s := by
  unfold assignOne
  rw [h]

lemma assignOne_group_default (defs : GroupDefs) (s : SummaryInfo)
    (hinit : s.group_name = ungroupedName)
    (hkeys : ∀ p ∈ defs, p.1 ≠ ungroupedName) :
    ((assignOne defs s).group_name = ungroupedName ↔
      get_group_for_summary defs s.summary_name = none) := by
  cases h : get_group_for_summary defs s.summary_name with
  | none => rw [assignOne_of_none defs s h]; simp [hinit, h]
  | some g =>
      have hg : g ∈ defs.map Prod.fst := get_group_mem defs _ g h
      rw [List.mem_map] at hg
      obtain ⟨p, hp, hpg⟩ := hg
      have hne : g ≠ ungroupedName := hpg ▸ hkeys p hp
      have ha : (assignOne defs s).group_name = g := by
        unfold assignOne
        rw [h]
      rw [ha]
      simp [hne]

lemma mem_memberOut (members : List (List Char)) (sl : List SummaryInfo)
    (c : List Char) (h : c ∈ memberOut members sl) :
    ∃ s ∈ sl, c = joinLines s.subheads := by
  unfold memberOut at h
  rw [List.mem_filterMap] at h
  obtain ⟨item, _, hfm⟩ := h
  cases hf : sl.find? (fun x => x.summary_name = item) with
  | none => rw [hf] at hfm; simp at hfm
  | some sec =>
      rw [hf] at hfm
      simp at hfm
      exact ⟨sec, List.mem_of_find?_eq_some hf, hfm.symm⟩

lemma mem_declaredOut (sl : List SummaryInfo) (defs : GroupDefs) (c : List Char)
    (h : c ∈ declaredOut sl defs) :
    (∃ p ∈ defs, c = headerChunk p.1) ∨ ∃ s ∈ sl, c = joinLines s.subheads := by
  induction defs with
  | nil => simp [declaredOut] at h
  | cons p rest ih =>
      obtain ⟨g, members⟩ := p
      have hunfold : declaredOut sl ((g, members) :: rest) =
          headerChunk g :: (memberOut members sl ++ declaredOut sl rest) := rfl
      rw [hunfold, List.mem_cons, List.mem_append] at h
      rcases h with h | h | h
      · exact Or.inl ⟨(g, members), by simp, h⟩
      · exact Or.inr (mem_memberOut members sl c h)
      · rcases ih h with ⟨q, hq, hc⟩ | hs
        · exact Or.inl ⟨q, by simp [hq], hc⟩
        · exact Or.inr hs

/--
C8 (confirmed).  When the grouping definition file path does not exist, or
the file exists but fails to parse, `summary_map` keeps its initial `None`
(the condition having been reported on stdout, which is outside this model),
and the writing phase behaves exactly as with no grouping definition: every
document's block is written in the (sorted) input order of the summary list,
and no written chunk is a `## ` group header line.
-/
theorem c8_unparseable_grouping_falls_back (sl : List SummaryInfo)
    (hshape : ∀ s ∈ sl, startsWithDetails s.subheads = true) :
    (∀ parsed : Option GroupDefs,
        writeSidebar (loadSummaryMap false parsed) sl =
          sl.map (fun s => joinLines s.subheads)) ∧
    writeSidebar (loadSummaryMap true none) sl =
      sl.map (fun s => joinLines s.subheads) ∧
    ∀ c ∈ writeSidebar none sl, isGroupHeaderChunk c = false := by
  refine ⟨fun parsed => rfl, rfl, ?_⟩
  intro c hc
  simp only [writeSidebar, writeFlat, List.mem_map] at hc
  obtain ⟨s, hs, rfl⟩ := hc
  exact isGroupHeaderChunk_block s.subheads (hshape s hs)

/-- Witness for C8 at a concrete one-document summary list. -/
theorem c8_witness :
    writeSidebar (loadSummaryMap false (some [("G".data, ["A".data])]))
        [mkSummaryInfo "A".data [Line.detailsOpen "h".data "A".data]] =
      [mkSummaryInfo "A".data [Line.detailsOpen "h".data "A".data]].map
        (fun s => joinLines s.subheads) :=
  (c8_unparseable_grouping_falls_back
    [mkSummaryInfo "A".data [Line.detailsOpen "h".data "A".data]]
    (by decide)).1 (some [("G".data, ["A".data])])

lemma ungroupedOut_true_eq (sl : List SummaryInfo) :
    ungroupedOut true sl =
      (sl.filter (fun s => s.group_name = ungroupedName)).map
        (fun s => joinLines s.subheads) := by
  induction sl with
  | nil => rfl
  | cons s rest ih =>
      by_cases hg : s.group_name = ungroupedName
      · simp [ungroupedOut, hg, List.filter_cons, ih]
      · simp [ungroupedOut, hg, List.filter_cons, ih]

lemma ungroupedOut_false_eq (sl : List SummaryInfo) :
    ungroupedOut false sl =
      if sl.filter (fun s => s.group_name = ungroupedName) = [] then []
      else
        headerChunk ungroupedName ::
          (sl.filter (fun s => s.group_name = ungroupedName)).map
            (fun s => joinLines s.subheads) := by
  induction sl with
  | nil => rfl
  | cons s rest ih =>
      by_cases hg : s.group_name = ungroupedName
      · simp [ungroupedOut, hg, List.filter_cons, ungroupedOut_true_eq]
      · simp [ungroupedOut, hg, List.filter_cons, ih]

lemma filter_assign (defs : GroupDefs) (hkeys : ∀ p ∈ defs, p.1 ≠ ungroupedName) :
    ∀ sl : List SummaryInfo, (∀ s ∈ sl, s.group_name = ungroupedName) →
      (assignGroups defs sl).filter (fun s => s.group_name = ungroupedName) =
        sl.filter (fun s => (get_group_for_summary defs s.summary_name).isNone) := by
  intro sl
  induction sl with
  | nil => intro _; rfl
  | cons s rest ih =>
      intro hinit
      have hs := hinit s (by simp)
      have hrest : ∀ x ∈ rest, x.group_name = ungroupedName := fun x hx =>
        hinit x (by simp [hx])
      have hmap : assignGroups defs (s :: rest) =
          assignOne defs s :: assignGroups defs rest := rfl
      rw [hmap]
      by_cases hn : get_group_for_summary defs s.summary_name = none
      · have h1 : (assignOne defs s).group_name = ungroupedName :=
          (assignOne_group_default defs s hs hkeys).mpr hn
        rw [List.filter_cons_of_pos (by simp [h1]),
          List.filter_cons_of_pos (by simp [hn]),
          assignOne_of_none defs s hn]
        exact congrArg (fun l => s :: l) (ih hrest)
      · have h1 : ¬((assignOne defs s).group_name = ungroupedName) := fun hx =>
          hn ((assignOne_group_default defs s hs hkeys).mp hx)
        rw [List.filter_cons_of_neg (by simp [h1]),
          List.filter_cons_of_neg (by simp [hn])]
        exact ih hrest

/--
C7 (corrected).  Provided no declared group is itself named `Ungrouped` (see
the counterexample for why this proviso is forced), every document whose
title matches no entry in any group's member list is emitted under the
default group `Ungrouped`, after all declared groups, in original input
order, and the `## Ungrouped` header chunk is written exactly once.
-/
theorem c7_ungrouped_fallback (defs : GroupDefs) (sl : List SummaryInfo)
    (hinit : ∀ s ∈ sl, s.group_name = ungroupedName)
    (hkeys : ∀ p ∈ defs, p.1 ≠ ungroupedName)
    (hshape : ∀ s ∈ sl, startsWithDetails s.subheads = true)
    (hex : ∃ s ∈ sl, get_group_for_summary defs s.summary_name = none) :
    writeGrouped defs sl =
      declaredOut (assignGroups defs sl) defs ++
        headerChunk ungroupedName ::
          (sl.filter (fun s => (get_group_for_summary defs s.summary_name).isNone)).map
            (fun s => joinLines s.subheads) ∧
    (writeGrouped defs sl).count (headerChunk ungroupedName) = 1 := by
  have hfa := filter_assign defs hkeys sl hinit
  have hne : sl.filter
      (fun s => (get_group_for_summary defs s.summary_name).isNone) ≠ [] := by
    obtain ⟨s, hsmem, hn⟩ := hex
    intro hnil
    have hmem : s ∈ sl.filter
        (fun s => (get_group_for_summary defs s.summary_name).isNone) :=
      List.mem_filter.2 ⟨hsmem, by simp [hn]⟩
    rw [hnil] at hmem
    simp at hmem
  have hmain : writeGrouped defs sl =
      declaredOut (assignGroups defs sl) defs ++
        headerChunk ungroupedName ::
          (sl.filter (fun s => (get_group_for_summary defs s.summary_name).isNone)).map
            (fun s => joinLines s.subheads) := by
    show declaredOut (assignGroups defs sl) defs ++
      ungroupedOut false (assignGroups defs sl) = _
    rw [ungroupedOut_false_eq (assignGroups defs sl), hfa, if_neg hne]
  refine ⟨hmain, ?_⟩
  have hdecl : (declaredOut (assignGroups defs sl) defs).count
      (headerChunk ungroupedName) = 0 := by
    rw [List.count_eq_zero]
    intro hmem
    rcases mem_declaredOut _ _ _ hmem with ⟨p, hp, hc⟩ | ⟨s, hsmem, hc⟩
    · exact hkeys p hp (headerChunk_inj _ _ hc.symm)
    · rw [show assignGroups defs sl = sl.map (assignOne defs) from rfl,
        List.mem_map] at hsmem
      obtain ⟨s0, hs0, rfl⟩ := hsmem
      have hsh : startsWithDetails (assignOne defs s0).subheads = true := by
        rw [assignOne_subheads]
        exact hshape s0 hs0
      exact block_ne_header _ _ hsh hc.symm
  have hmap0 : ((sl.filter
      (fun s => (get_group_for_summary defs s.summary_name).isNone)).map
        (fun s => joinLines s.subheads)).count (headerChunk ungroupedName) = 0 := by
    rw [List.count_eq_zero]
    intro hmem
    rw [List.mem_map] at hmem
    obtain ⟨s, hsmem, hc⟩ := hmem
    exact block_ne_header _ _ (hshape s (List.mem_filter.1 hsmem).1) hc
  rw [hmain, List.count_append, List.count_cons, hdecl, hmap0]
  simp

/--
C7 (counterexample).  The claim's "emitted exactly once" fails when a
declared group is itself named `Ungrouped`: with grouping definition
`{"Ungrouped": ["A"]}` and documents `A` (matched) and `B` (unmatched — so
the claim's premise holds), the `## Ungrouped` header chunk is written twice:
once for the declared group and once for the fallback section.
-/
theorem c7_counterexample_group_named_ungrouped :
    get_group_for_summary [(ungroupedName, ["A".data])] "B".data = none ∧
    (writeGrouped [(ungroupedName, ["A".data])]
        [mkSummaryInfo "A".data [Line.detailsOpen "h".data "A".data],
         mkSummaryInfo "B".data [Line.detailsOpen "h".data "B".data]]).count
      (headerChunk ungroupedName) = 2 := by
  refine ⟨by decide, by decide⟩

/-- Witness for C7 at a concrete grouping definition and document pair. -/
theorem c7_witness :
    (writeGrouped [("G".data, ["A".data])]
        [mkSummaryInfo "A".data [Line.detailsOpen "h".data "A".data],
         mkSummaryInfo "B".data [Line.detailsOpen "h".data "B".data]]).count
      (headerChunk ungroupedName) = 1 :=
  (c7_ungrouped_fallback [("G".data, ["A".data])]
    [mkSummaryInfo "A".data [Line.detailsOpen "h".data "A".data],
     mkSummaryInfo "B".data [Line.detailsOpen "h".data "B".data]]
    (by decide) (by decide) (by decide) (by decide)).2

lemma declaredOut_filter (sl : List SummaryInfo)
    (hsh : ∀ s ∈ sl, startsWithDetails s.subheads = true) :
    ∀ defs : GroupDefs,
      (declaredOut sl defs).filter (fun c => isGroupHeaderChunk c) =
        defs.map (fun p => headerChunk p.1) := by
  intro defs
  induction defs with
  | nil => rfl
  | cons p rest ih =>
      obtain ⟨g, members⟩ := p
      have hunfold : declaredOut sl ((g, members) :: rest) =
          headerChunk g :: (memberOut members sl ++ declaredOut sl rest) := rfl
      rw [hunfold, List.filter_cons_of_pos (isGroupHeaderChunk_header g),
        List.filter_append]
      have hmem : (memberOut members sl).filter (fun c => isGroupHeaderChunk c)
          = [] := by
        rw [List.filter_eq_nil_iff]
        intro c hc
        obtain ⟨s, hsmem, rfl⟩ := mem_memberOut members sl c hc
        simp [isGroupHeaderChunk_block _ (hsh s hsmem)]
      rw [hmem, ih]
      simp

/--
C10 (confirmed).  With a grouping definition, a `## group` header chunk is
written for every group of the mapping, in the mapping's declared order,
whether or not any of the group's declared member titles matches a document:
the header chunks of the grouped output are exactly the declared groups'
headers (in order) followed by whatever the ungrouped section contributes,
and even with no documents at all every declared group's header is written.
-/
theorem c10_header_per_declared_group (defs : GroupDefs) (sl : List SummaryInfo)
    (hshape : ∀ s ∈ sl, startsWithDetails s.subheads = true) :
    (writeGrouped defs sl).filter (fun c => isGroupHeaderChunk c) =
      defs.map (fun p => headerChunk p.1) ++
        (ungroupedOut false (assignGroups defs sl)).filter
          (fun c => isGroupHeaderChunk c) ∧
    (writeGrouped defs []).filter (fun c => isGroupHeaderChunk c) =
      defs.map (fun p => headerChunk p.1) := by
  have hsh1 : ∀ s ∈ assignGroups defs sl, startsWithDetails s.subheads = true := by
    intro s hs
    rw [show assignGroups defs sl = sl.map (assignOne defs) from rfl,
      List.mem_map] at hs
    obtain ⟨s0, hs0, rfl⟩ := hs
    rw [assignOne_subheads]
    exact hshape s0 hs0
  constructor
  · show (declaredOut (assignGroups defs sl) defs ++
      ungroupedOut false (assignGroups defs sl)).filter
        (fun c => isGroupHeaderChunk c) = _
    rw [List.filter_append, declaredOut_filter _ hsh1 defs]
  · show (declaredOut (assignGroups defs []) defs ++
      ungroupedOut false (assignGroups defs [])).filter
        (fun c => isGroupHeaderChunk c) = _
    rw [List.filter_append, declaredOut_filter _ (by intro s hs; exact absurd hs (List.not_mem_nil s)) defs]
    simp [assignGroups, ungroupedOut]

/-- Witness for C10: one declared group with no matching document still gets
its header. -/
theorem c10_witness :
    (writeGrouped [("G".data, ["X".data])] []).filter
        (fun c => isGroupHeaderChunk c) =
      [("G".data, ["X".data])].map (fun p => headerChunk p.1) :=
  (c10_header_per_declared_group [("G".data, ["X".data])] []
    (by intro s hs; exact absurd hs (List.not_mem_nil s))).2

end GithubSidebar
